import Mathlib

/-!
Shallow embedding of the rson-rs parser (src/parse.rs) and serializer
(src/ser/mod.rs). Bytes of the input are modelled as List Nat (each < 256
in practice), the cursor as an explicit state record, and every fallible
operation returns its result together with the state left behind, exactly
as the Rust code leaves the &mut self cursor behind on early return.
-/

namespace Rson

/-- Parse error kinds. The ParseError enum itself lives in the crate's de
module, which is not among the sources here; its constructors are modelled
from the spec's closed error taxonomy (spec 4.5), plus the Utf8 variant
that parse.rs targets when it converts a std::str::Utf8Error with e.into(). -/
inductive ParseError where
  | Eof
  | ExpectedBoolean
  | ExpectedChar
  | ExpectedString
  | ExpectedStringEnd
  | ExpectedInteger
  | ExpectedFloat
  | ExpectedIdentifier
  | InvalidEscape
  | Utf8Error
deriving DecidableEq

/-- Position = line and column, both 1-based (parse.rs, struct Position). -/
structure Position where
  line : Nat
  col : Nat
deriving DecidableEq

/-- Error::Parser(kind, position), the only error shape parse.rs produces. -/
structure Err where
  kind : ParseError
  pos : Position
deriving DecidableEq

/-- Result of a fallible cursor operation. -/
inductive Res (α : Type) where
  | ok (a : α)
  | error (e : Err)
deriving DecidableEq

/-- The byte cursor of parse.rs: struct Bytes { bytes, column, line }. -/
structure Bytes where
  bytes : List Nat
  column : Nat
  line : Nat
deriving DecidableEq

/-- b"0123456789" (parse.rs DIGITS). -/
def DIGITS : List Nat := [48, 49, 50, 51, 52, 53, 54, 55, 56, 57]

/-- b"A..Za..z_0..9" (parse.rs IDENT_CHAR), as byte values. -/
def IDENT_CHAR : List Nat :=
  ((List.range 26).map (fun i => 65 + i)) ++ ((List.range 26).map (fun i => 97 + i))
    ++ [95] ++ ((List.range 10).map (fun i => 48 + i))

/-- b"\n\t\r " (parse.rs WHITE_SPACE). -/
def WHITE_SPACE : List Nat := [10, 9, 13, 32]

/-- self.error(kind): an error carrying the current position. -/
def error (s : Bytes) (kind : ParseError) : Err := ⟨kind, ⟨s.line, s.column⟩⟩

/-- Bytes::advance_single. -/
def advance_single (s : Bytes) : Res Unit × Bytes :=
  match s.bytes with
  | [] => (.error (error s .Eof), s)
  | b :: rest =>
    if b = 10 then (.ok (), ⟨rest, 1, s.line + 1⟩)
    else (.ok (), ⟨rest, s.column + 1, s.line⟩)

/-- Bytes::advance: n advance_single steps, stopping at the first failure
but keeping the state mutated so far. -/
def advance : Nat → Bytes → Res Unit × Bytes
  | 0, s => (.ok (), s)
  | n + 1, s =>
    match advance_single s with
    | (.ok _, s1) => advance n s1
    | (.error e, s1) => (.error e, s1)

/-- State after a discarded advance, i.e. the Rust idiom
let _ = self.advance(n). -/
def advanceD (n : Nat) (s : Bytes) : Bytes := (advance n s).2

/-- Bytes::test_for: the next bytes equal the pattern. -/
def test_for : List Nat → List Nat → Bool
  | [], _ => true
  | _ :: _, [] => false
  | p :: ps, b :: bs => p == b && test_for ps bs

/-- Bytes::consume: on match, advance past the pattern. -/
def consume (pat : List Nat) (s : Bytes) : Bool × Bytes :=
  if test_for pat s.bytes then (true, advanceD pat.length s) else (false, s)

/-- Bytes of the keyword true. -/
def strTrue : List Nat := [116, 114, 117, 101]

/-- Bytes of the keyword false. -/
def strFalse : List Nat := [102, 97, 108, 115, 101]

/-- Bytes::bool: consume("true") / consume("false") / ExpectedBoolean. -/
def bool (s : Bytes) : Res Bool × Bytes :=
  match consume strTrue s with
  | (true, s1) => (.ok true, s1)
  | (false, s1) =>
    match consume strFalse s1 with
    | (true, s2) => (.ok false, s2)
    | (false, s2) => (.error (error s2 .ExpectedBoolean), s2)

/-- Bytes::peek_or_eof. -/
def peek_or_eof (s : Bytes) : Res Nat :=
  match s.bytes.head? with
  | some b => .ok b
  | none => .error (error s .Eof)

/-- Bytes::eat_byte: peek_or_eof then a discarded advance_single. -/
def eat_byte (s : Bytes) : Res Nat × Bytes :=
  match peek_or_eof s with
  | .ok b => (.ok b, (advance_single s).2)
  | .error e => (.error e, s)

/-- Bytes of a single-quote delimiter. -/
def quoteCh : List Nat := [39]

/-- Bytes::char: quote, one byte (backslash allows only a backslash or a
quote escape), closing quote; the result is the byte cast to a char,
i.e. the byte value as a code point. -/
def char (s : Bytes) : Res Nat × Bytes :=
  match consume quoteCh s with
  | (false, s1) => (.error (error s1 .ExpectedChar), s1)
  | (true, s1) =>
    match eat_byte s1 with
    | (.error e, s2) => (.error e, s2)
    | (.ok c, s2) =>
      let esc : Res Nat × Bytes :=
        if c = 92 then
          match eat_byte s2 with
          | (.error e, s3) => (.error e, s3)
          | (.ok c2, s3) =>
            if c2 ≠ 92 ∧ c2 ≠ 39 then (.error (error s3 .InvalidEscape), s3)
            else (.ok c2, s3)
        else (.ok c, s2)
      match esc with
      | (.error e, s4) => (.error e, s4)
      | (.ok cc, s4) =>
        match consume quoteCh s4 with
        | (false, s5) => (.error (error s5 .ExpectedChar), s5)
        | (true, s5) => (.ok cc, s5)

/-- Length of the take_while run of an iterator, as used by parse.rs. -/
def takeWhileCount (p : Nat → Bool) : List Nat → Nat
  | [] => 0
  | b :: rest => if p b then takeWhileCount p rest + 1 else 0

/-- The stateful take_while closure of Bytes::skip_comment's block-comment
branch: prev_char and level thread through; counting stops when a */
closes the outermost level. -/
def blockCommentLen : List Nat → Nat → Nat → Nat
  | [], _, _ => 0
  | c :: rest, prev, level =>
    if prev = 42 ∧ c = 47 then
      if level = 0 then 0
      else blockCommentLen rest 0 (level - 1) + 1
    else if prev = 47 ∧ c = 42 then blockCommentLen rest 0 (level + 1) + 1
    else blockCommentLen rest c level + 1

/-- Bytes of a line-comment opener. -/
def slashSlash : List Nat := [47, 47]

/-- Bytes of a block-comment opener. -/
def slashStar : List Nat := [47, 42]

/-- Bytes::skip_comment. -/
def skip_comment (s : Bytes) : Bool × Bytes :=
  match consume slashSlash s with
  | (true, s1) =>
    (true, advanceD (takeWhileCount (fun c => c != 10) s1.bytes + 1) s1)
  | (false, s1) =>
    match consume slashStar s1 with
    | (true, s2) => (true, advanceD (blockCommentLen s2.bytes 0 0 + 1) s2)
    | (false, s2) => (false, s2)

/-- The whitespace loop of Bytes::skip_ws; fuel bounds the iteration count
and s.bytes.length iterations always suffice because every step consumes
one byte. -/
def skipWsRun : Nat → Bytes → Bytes
  | 0, s => s
  | f + 1, s =>
    match s.bytes.head? with
    | some b => if b ∈ WHITE_SPACE then skipWsRun f (advance_single s).2 else s
    | none => s

/-- Fuel-indexed Bytes::skip_ws. skip_ws below supplies bytes.length + 1
fuel, which suffices: every recursive call follows a skip_comment that
returned true, and such a call consumed at least the two bytes of the
comment opener, so the byte count strictly decreases. -/
def skipWsF : Nat → Bytes → Bytes
  | 0, s => s
  | f + 1, s =>
    let s1 := skipWsRun s.bytes.length s
    match skip_comment s1 with
    | (true, s2) => skipWsF f s2
    | (false, s2) => s2

/-- Bytes::skip_ws. -/
def skip_ws (s : Bytes) : Bytes := skipWsF (s.bytes.length + 1) s

/-- Bytes::new: start at line 1, column 1 and skip leading whitespace. -/
def new (bytes : List Nat) : Bytes := skip_ws ⟨bytes, 1, 1⟩

/-- Bytes::next_bytes_contained_in. -/
def next_bytes_contained_in (allowed : List Nat) (s : Bytes) : Nat :=
  takeWhileCount (fun b => allowed.contains b) s.bytes

/-- Numeric value of a run of ASCII decimal digits. -/
def natOfDigits (l : List Nat) : Nat :=
  l.foldl (fun acc d => acc * 10 + (d - 48)) 0

/-- Bytes::unsigned_integer::<T>. maxVal is T::MAX: FromStr on a nonempty
run of decimal digits fails exactly when the value overflows T. -/
def unsigned_integer (maxVal : Nat) (s : Bytes) : Res Nat × Bytes :=
  let num_bytes := next_bytes_contained_in DIGITS s
  if num_bytes = 0 then (.error (error s .Eof), s)
  else
    let v := natOfDigits (s.bytes.take num_bytes)
    let res : Res Nat :=
      if v ≤ maxVal then .ok v else .error (error s .ExpectedInteger)
    (res, advanceD num_bytes s)

/-- Continuation byte test for UTF-8 validation. -/
def contB (b : Nat) : Bool := 128 ≤ b && b ≤ 191

/-- std::str::from_utf8 validity of a byte sequence. -/
def utf8Valid : List Nat → Bool
  | [] => true
  | b :: rest =>
    if b ≤ 127 then utf8Valid rest
    else if 194 ≤ b && b ≤ 223 then
      match rest with
      | b2 :: r => contB b2 && utf8Valid r
      | [] => false
    else if b = 224 then
      match rest with
      | b2 :: b3 :: r => (160 ≤ b2 && b2 ≤ 191) && contB b3 && utf8Valid r
      | _ => false
    else if 225 ≤ b && b ≤ 236 then
      match rest with
      | b2 :: b3 :: r => contB b2 && contB b3 && utf8Valid r
      | _ => false
    else if b = 237 then
      match rest with
      | b2 :: b3 :: r => (128 ≤ b2 && b2 ≤ 159) && contB b3 && utf8Valid r
      | _ => false
    else if 238 ≤ b && b ≤ 239 then
      match rest with
      | b2 :: b3 :: r => contB b2 && contB b3 && utf8Valid r
      | _ => false
    else if b = 240 then
      match rest with
      | b2 :: b3 :: b4 :: r =>
        (144 ≤ b2 && b2 ≤ 191) && contB b3 && contB b4 && utf8Valid r
      | _ => false
    else if 241 ≤ b && b ≤ 243 then
      match rest with
      | b2 :: b3 :: b4 :: r => contB b2 && contB b3 && contB b4 && utf8Valid r
      | _ => false
    else if b = 244 then
      match rest with
      | b2 :: b3 :: b4 :: r =>
        (128 ≤ b2 && b2 ≤ 143) && contB b3 && contB b4 && utf8Valid r
      | _ => false
    else false

/-- ParsedStr of parse.rs: an owned (escape-decoded) or borrowed string,
both held as their byte sequences. -/
inductive ParsedStr where
  | Allocated (s : List Nat)
  | Slice (s : List Nat)
deriving DecidableEq

/-- Value of one hex digit byte, as matched by Bytes::decode_hex_escape. -/
def hexVal (c : Nat) : Option Nat :=
  if 48 ≤ c ∧ c ≤ 57 then some (c - 48)
  else if c = 97 ∨ c = 65 then some 10
  else if c = 98 ∨ c = 66 then some 11
  else if c = 99 ∨ c = 67 then some 12
  else if c = 100 ∨ c = 68 then some 13
  else if c = 101 ∨ c = 69 then some 14
  else if c = 102 ∨ c = 70 then some 15
  else none

/-- The 4-iteration loop of Bytes::decode_hex_escape. -/
def dheLoop : Nat → Nat → Bytes → Res Nat × Bytes
  | 0, n, s => (.ok n, s)
  | k + 1, n, s =>
    match eat_byte s with
    | (.error e, s1) => (.error e, s1)
    | (.ok c, s1) =>
      match hexVal c with
      | some d => dheLoop k (n * 16 + d) s1
      | none => (.error (error s1 .InvalidEscape), s1)

/-- Bytes::decode_hex_escape. -/
def decode_hex_escape (s : Bytes) : Res Nat × Bytes := dheLoop 4 0 s

/-- char::from_u32 succeeds exactly on non-surrogate values up to 0x10FFFF. -/
def isValidCp (n : Nat) : Bool := n < 55296 || (57344 ≤ n && n ≤ 1114111)

/-- UTF-8 encoding of a code point, the effect of char::encode_utf8; the
additions all place disjoint bit ranges, so + agrees with bitwise or. -/
def utf8Encode (c : Nat) : List Nat :=
  if c < 128 then [c]
  else if c < 2048 then [192 + c / 64, 128 + c % 64]
  else if c < 65536 then [224 + c / 4096, 128 + c / 64 % 64, 128 + c % 64]
  else [240 + c / 262144, 128 + c / 4096 % 64, 128 + c / 64 % 64, 128 + c % 64]

/-- Bytes::parse_str_escape: one escape sequence after a backslash, pushed
onto the store. -/
def parse_str_escape (store : List Nat) (s : Bytes) : Res (List Nat) × Bytes :=
  match eat_byte s with
  | (.error e, s1) => (.error e, s1)
  | (.ok c, s1) =>
    if c = 34 then (.ok (store ++ [34]), s1)
    else if c = 92 then (.ok (store ++ [92]), s1)
    else if c = 98 then (.ok (store ++ [8]), s1)
    else if c = 102 then (.ok (store ++ [12]), s1)
    else if c = 110 then (.ok (store ++ [10]), s1)
    else if c = 114 then (.ok (store ++ [13]), s1)
    else if c = 116 then (.ok (store ++ [9]), s1)
    else if c = 117 then
      match decode_hex_escape s1 with
      | (.error e, s2) => (.error e, s2)
      | (.ok n1, s2) =>
        if 56320 ≤ n1 ∧ n1 ≤ 57343 then (.error (error s2 .InvalidEscape), s2)
        else if 55296 ≤ n1 ∧ n1 ≤ 56319 then
          match eat_byte s2 with
          | (.error e, s3) => (.error e, s3)
          | (.ok c1, s3) =>
            if c1 ≠ 92 then (.error (error s3 .InvalidEscape), s3)
            else
              match eat_byte s3 with
              | (.error e, s4) => (.error e, s4)
              | (.ok c2, s4) =>
                if c2 ≠ 117 then (.error (error s4 .InvalidEscape), s4)
                else
                  match decode_hex_escape s4 with
                  | (.error e, s5) => (.error e, s5)
                  | (.ok n2, s5) =>
                    if n2 < 56320 ∨ 57343 < n2 then
                      (.error (error s5 .InvalidEscape), s5)
                    else
                      let cp := (((n1 - 55296) <<< 10) ||| (n2 - 56320)) + 65536
                      if isValidCp cp then (.ok (store ++ utf8Encode cp), s5)
                      else (.error (error s5 .InvalidEscape), s5)
        else
          if isValidCp n1 then (.ok (store ++ utf8Encode n1), s2)
          else (.error (error s2 .InvalidEscape), s2)
    else (.error (error s1 .InvalidEscape), s1)

/-- Index and value of the first backslash or double-quote byte, the
enumerate().find() scan of Bytes::escaped_string. -/
def findEscapeOrQuote : List Nat → Option (Nat × Nat)
  | [] => none
  | b :: rest =>
    if b = 92 ∨ b = 34 then some (0, b)
    else
      match findEscapeOrQuote rest with
      | some (i, c) => some (i + 1, c)
      | none => none

/-- The decoding loop of Bytes::escaped_string. The fuel passed below is
bytes.length + 1, which suffices: each iteration consumes the found
prefix, its delimiter byte and at least one escape byte. -/
def escLoop : Nat → List Nat → Bytes → Res ParsedStr × Bytes
  | 0, _, s => (.error (error s .Eof), s)
  | f + 1, store, s =>
    match parse_str_escape store s with
    | (.error e, s1) => (.error e, s1)
    | (.ok store1, s1) =>
      match findEscapeOrQuote s1.bytes with
      | none => (.error (error s1 .Eof), s1)
      | some (i, b) =>
        let store2 := store1 ++ s1.bytes.take i
        if b = 34 then
          let s2 := advanceD (i + 1) s1
          if utf8Valid store2 then (.ok (.Allocated store2), s2)
          else (.error (error s2 .Utf8Error), s2)
        else escLoop f store2 (advanceD (i + 1) s1)

/-- Bytes::escaped_string (the opening quote is already consumed). -/
def escaped_string (s : Bytes) : Res ParsedStr × Bytes :=
  match findEscapeOrQuote s.bytes with
  | none => (.error (error s .Eof), s)
  | some (i, b) =>
    if b = 34 then
      let body := s.bytes.take i
      if utf8Valid body then (.ok (.Slice body), advanceD (i + 1) s)
      else (.error (error s .Utf8Error), s)
    else escLoop (s.bytes.length + 1) (s.bytes.take i) (advanceD (i + 1) s)

/-- slice.windows(pat.length).position(window == pat): the index of the
first occurrence of pat as a contiguous subsequence. -/
def windowPos : List Nat → List Nat → Option Nat
  | pat, [] => if pat = [] then some 0 else none
  | pat, c :: t =>
    if (c :: t).take pat.length = pat then some 0
    else
      match windowPos pat t with
      | some i => some (i + 1)
      | none => none

/-- Bytes of a double-quote delimiter. -/
def quoteB : List Nat := [34]

/-- Bytes::raw_string (the leading r is already consumed). -/
def raw_string (s : Bytes) : Res ParsedStr × Bytes :=
  let num_hashes := takeWhileCount (fun b => b == 35) s.bytes
  let hashes := s.bytes.take num_hashes
  let s1 := advanceD num_hashes s
  match consume quoteB s1 with
  | (false, s2) => (.error (error s2 .ExpectedString), s2)
  | (true, s2) =>
    match windowPos (34 :: hashes) s2.bytes with
    | none => (.error (error s2 .ExpectedStringEnd), s2)
    | some i =>
      let body := s2.bytes.take i
      if utf8Valid body then (.ok (.Slice body), advanceD (i + num_hashes + 1) s2)
      else (.error (error s2 .Utf8Error), s2)

/-- Bytes of the raw-string opener letter r. -/
def rB : List Nat := [114]

/-- Bytes::string: a double quote starts an escaped string, an r starts a
raw string, anything else is ExpectedString. -/
def string (s : Bytes) : Res ParsedStr × Bytes :=
  match consume quoteB s with
  | (true, s1) => escaped_string s1
  | (false, s1) =>
    match consume rB s1 with
    | (true, s2) => raw_string s2
    | (false, s2) => (.error (error s2 .ExpectedString), s2)

/-- First occurrence predicate used to state raw-string claims: pat occurs
as a contiguous substring of l. -/
def containsSub (pat l : List Nat) : Prop :=
  ∃ i < l.length, (l.drop i).take pat.length = pat

instance (pat l : List Nat) : Decidable (containsSub pat l) := by
  unfold containsSub; infer_instance

/-- Byte values of a Lean string literal, for naming concrete inputs. -/
def strBytes (t : String) : List Nat := t.data.map Char.toNat

/-!
The serializer of src/ser/mod.rs. The output String is modelled as a
List Char; pretty holds the indent depth of the Pretty state when pretty
printing is on. Element and field sub-serializations are passed as state
transformers, mirroring value.serialize(&mut **self) for values whose
serialization cannot fail (all values appearing in the claims).
-/

/-- NEWLINE on non-windows targets. -/
def NEWLINE : List Char := "\n".data

/-- An opening brace as text. -/
def lbrace : String := "\x7b"

/-- A closing brace as text. -/
def rbrace : String := "\x7d"

/-- The Serializer struct of ser/mod.rs. -/
structure Serializer where
  output : List Char
  pretty : Option Nat
  struct_names : Bool
deriving DecidableEq

/-- Serializer::start_indent. -/
def start_indent (s : Serializer) : Serializer :=
  match s.pretty with
  | some ind => { s with pretty := some (ind + 1), output := s.output ++ NEWLINE }
  | none => s

/-- Serializer::indent. -/
def indent (s : Serializer) : Serializer :=
  match s.pretty with
  | some ind => { s with output := s.output ++ List.replicate (ind * 4) ' ' }
  | none => s

/-- Serializer::end_indent: decrement the depth, then emit the indent of
the new depth. -/
def end_indent (s : Serializer) : Serializer :=
  match s.pretty with
  | some ind =>
    { s with pretty := some (ind - 1),
             output := s.output ++ List.replicate ((ind - 1) * 4) ' ' }
  | none => s

/-- self.output += t. -/
def pushStr (t : String) (s : Serializer) : Serializer :=
  { s with output := s.output ++ t.data }

/-- serialize_i64 (and the narrower widths, which widen to it):
output += v.to_string(). -/
def serialize_i64 (v : Int) (s : Serializer) : Serializer :=
  { s with output := s.output ++ (toString v).data }

/-- serialize_u64: output += v.to_string(). -/
def serialize_u64 (v : Nat) (s : Serializer) : Serializer :=
  { s with output := s.output ++ (toString v).data }

/-- serialize_none: output += "None". -/
def serialize_none (s : Serializer) : Serializer := pushStr (r"None") s

/-- Escaping loop of serialize_str: backslash and double quote get a
backslash prefix. -/
def escChars : List Char → List Char
  | [] => []
  | c :: r =>
    if c = '\\' ∨ c = '"' then '\\' :: c :: escChars r
    else c :: escChars r

/-- serialize_str: a double-quoted, escaped rendering of v. -/
def serialize_str (v : String) (s : Serializer) : Serializer :=
  { s with output := s.output ++ '"' :: (escChars v.data ++ ['"']) }

/-- serialize_tuple: output += "(" (no indent change; tuples stay on one
line). -/
def serialize_tuple (s : Serializer) : Serializer :=
  { s with output := s.output ++ ['('] }

/-- SerializeTuple::serialize_element: the element, a comma, and in pretty
mode a space. -/
def tupleElement (f : Serializer → Serializer) (s : Serializer) : Serializer :=
  let s1 := f s
  let s2 := { s1 with output := s1.output ++ [','] }
  match s2.pretty with
  | some _ => { s2 with output := s2.output ++ [' '] }
  | none => s2

/-- SerializeTuple::end: in pretty mode pop the output twice, then a
closing paren. -/
def tupleEnd (s : Serializer) : Serializer :=
  let s1 :=
    match s.pretty with
    | some _ => { s with output := s.output.dropLast.dropLast }
    | none => s
  { s1 with output := s1.output ++ [')'] }

/-- Serializer::serialize_struct: the type name when struct_names is set,
an opening brace, and start_indent. -/
def serialize_struct (name : String) (s : Serializer) : Serializer :=
  let s1 := if s.struct_names then pushStr name s else s
  start_indent (pushStr lbrace s1)

/-- SerializeStruct::serialize_field: indent, the field name, a colon (a
space after it in pretty mode), the value, a comma, and a newline in
pretty mode. -/
def structField (key : String) (f : Serializer → Serializer) (s : Serializer) :
    Serializer :=
  let s1 := indent s
  let s2 := pushStr (r":") (pushStr key s1)
  let s3 :=
    match s2.pretty with
    | some _ => { s2 with output := s2.output ++ [' '] }
    | none => s2
  let s4 := f s3
  let s5 := { s4 with output := s4.output ++ [','] }
  match s5.pretty with
  | some _ => { s5 with output := s5.output ++ NEWLINE }
  | none => s5

/-- SerializeStruct::end: end_indent then a closing brace. -/
def structEnd (s : Serializer) : Serializer :=
  pushStr rbrace (end_indent s)

/-- The hex digit byte (lowercase) for a value below 16. -/
def hexDigit (d : Nat) : Nat := if d < 10 then 48 + d else 87 + d

/-- The four hex digit bytes of a value below 0x10000. -/
def hex4 (n : Nat) : List Nat :=
  [hexDigit (n / 4096), hexDigit (n / 256 % 16), hexDigit (n / 16 % 16), hexDigit (n % 16)]

/-- Error kind of a result, if it is an error. -/
def errKind {α : Type} : Res α → Option ParseError
  | .ok _ => none
  | .error e => some e.kind

/-- Input of spec scenario 3: a balanced nested block comment before true. -/
def c4str : String := "/* a /* nested */ comment */ true"

/-- A keyword immediately followed by an identifier character. -/
def c1str : String := "true_value"

/-- The raw-string counterexample input, the bytes of r#"x"##y"# with one
opening hash. -/
def c2input : List Nat := [114, 35, 34, 120, 34, 35, 35, 121, 34, 35]

/-- The intended body of the counterexample raw string: x"##y. -/
def c2body : List Nat := [120, 34, 35, 35, 121]

/-!
Supporting lemmas.
-/

theorem advance_bytes (n : Nat) : ∀ s : Bytes, (advance n s).2.bytes = s.bytes.drop n := by
  induction n with
  | zero => intro s; simp [advance]
  | succ n ih =>
    intro s
    cases h : s.bytes with
    | nil => simp [advance, advance_single, h]
    | cons b rest =>
      by_cases hb : b = 10 <;>
        simp [advance, advance_single, h, hb, ih]

theorem advanceD_bytes (n : Nat) (s : Bytes) : (advanceD n s).bytes = s.bytes.drop n :=
  advance_bytes n s

theorem advanceD_succ_cons {b : Nat} (hb : b ≠ 10) (n : Nat) (rest : List Nat)
    (col line : Nat) :
    advanceD (n + 1) ⟨b :: rest, col, line⟩ = advanceD n ⟨rest, col + 1, line⟩ := by
  simp [advanceD, advance, advance_single, hb]

theorem advanceD_no_nl : ∀ (n : Nat) (s : Bytes),
    (∀ b ∈ s.bytes.take n, b ≠ 10) → n ≤ s.bytes.length →
    advanceD n s = ⟨s.bytes.drop n, s.column + n, s.line⟩ := by
  intro n
  induction n with
  | zero => intro s _ _; simp [advanceD, advance]
  | succ n ih =>
    intro s hnl hlen
    cases h : s.bytes with
    | nil => rw [h] at hlen; simp at hlen
    | cons b rest =>
      have hb : b ≠ 10 := by
        apply hnl
        rw [h]
        simp [List.take_succ_cons]
      have : advanceD (n + 1) s = advanceD (n + 1) ⟨b :: rest, s.column, s.line⟩ := by
        have hs : s = ⟨b :: rest, s.column, s.line⟩ := by
          cases s; simp_all
        rw [← hs]
      rw [this, advanceD_succ_cons hb]
      rw [ih ⟨rest, s.column + 1, s.line⟩ (by intro x hx; exact hnl x (by rw [h]; simp [List.take_succ_cons]; right; exact hx)) (by rw [h] at hlen; simpa using hlen)]
      simp [h]
      omega

theorem test_for_append : ∀ (p t : List Nat), test_for p (p ++ t) = true := by
  intro p
  induction p with
  | nil => intro t; rfl
  | cons x xs ih => intro t; simp [test_for, ih]

theorem consume_append_no_nl (p t : List Nat) (col line : Nat)
    (hnl : ∀ b ∈ p, b ≠ 10) :
    consume p ⟨p ++ t, col, line⟩ = (true, ⟨t, col + p.length, line⟩) := by
  have h1 : test_for p (p ++ t) = true := test_for_append p t
  simp only [consume, h1, if_pos]
  rw [advanceD_no_nl]
  · simp [List.take_left, List.drop_left]
  · intro b hb
    exact hnl b (by rw [List.take_left' rfl] at hb; exact hb)
  · simp

theorem consume_fail (p : List Nat) (s : Bytes) (h : test_for p s.bytes = false) :
    consume p s = (false, s) := by
  simp [consume, h]

theorem twc_replicate (p : Nat → Bool) (a c : Nat) (t : List Nat)
    (ha : p a = true) (hc : p c = false) :
    ∀ n, takeWhileCount p (List.replicate n a ++ c :: t) = n := by
  intro n
  induction n with
  | zero => simp [takeWhileCount, hc]
  | succ n ih => simp [List.replicate_succ, takeWhileCount, ha, ih]

theorem twc_pos (p : Nat → Bool) (l : List Nat) (h : takeWhileCount p l ≠ 0) :
    ∃ b t, l = b :: t ∧ p b = true := by
  cases l with
  | nil => simp [takeWhileCount] at h
  | cons b t =>
    by_cases hb : p b = true
    · exact ⟨b, t, rfl, hb⟩
    · simp [takeWhileCount, hb] at h

theorem feq_clean : ∀ (pre : List Nat), 34 ∉ pre → 92 ∉ pre →
    ∀ (b : Nat) (t : List Nat), (b = 92 ∨ b = 34) →
    findEscapeOrQuote (pre ++ b :: t) = some (pre.length, b) := by
  intro pre
  induction pre with
  | nil => intro _ _ b t hb; simp [findEscapeOrQuote, hb]
  | cons c pre' ih =>
    intro h34 h92 b t hb
    have hc : ¬(c = 92 ∨ c = 34) := by
      rintro (rfl | rfl)
      · exact h92 (List.mem_cons_self _ _)
      · exact h34 (List.mem_cons_self _ _)
    have h34' : 34 ∉ pre' := fun h => h34 (List.mem_cons_of_mem _ h)
    have h92' : 92 ∉ pre' := fun h => h92 (List.mem_cons_of_mem _ h)
    have hrec := ih h34' h92' b t hb
    simp only [List.cons_append, findEscapeOrQuote, if_neg hc]
    rw [show pre'.append (b :: t) = pre' ++ b :: t from rfl, hrec]
    simp

theorem feq_some_lt : ∀ (l : List Nat) (i c : Nat),
    findEscapeOrQuote l = some (i, c) → i < l.length ∧ (c = 92 ∨ c = 34) := by
  intro l
  induction l with
  | nil => intro i c h; simp [findEscapeOrQuote] at h
  | cons b t ih =>
    intro i c h
    by_cases hb : b = 92 ∨ b = 34
    · simp only [findEscapeOrQuote, if_pos hb, Option.some.injEq, Prod.mk.injEq] at h
      obtain ⟨hi, hc⟩ := h
      subst hi; subst hc
      exact ⟨by simp, hb⟩
    · simp only [findEscapeOrQuote, if_neg hb] at h
      cases hrec : findEscapeOrQuote t with
      | none => rw [hrec] at h; simp at h
      | some p =>
        obtain ⟨j, d⟩ := p
        rw [hrec] at h
        simp only [Option.some.injEq, Prod.mk.injEq] at h
        obtain ⟨hi, hc⟩ := h
        subst hi; subst hc
        have := ih j d hrec
        exact ⟨by simp [Nat.succ_lt_succ_iff, this.1], this.2⟩

theorem containsSub_cons {pat : List Nat} {c : Nat} {b : List Nat}
    (h : containsSub pat b) : containsSub pat (c :: b) := by
  obtain ⟨i, hi, hocc⟩ := h
  exact ⟨i + 1, by simpa using Nat.succ_lt_succ hi, by simpa using hocc⟩

theorem windowPos_here {pat : List Nat} (hne : pat ≠ []) (t : List Nat) :
    windowPos pat (pat ++ t) = some 0 := by
  cases pat with
  | nil => exact absurd rfl hne
  | cons p ps =>
    have : ((p :: ps) ++ t).take (p :: ps).length = p :: ps := List.take_left _ _
    simp only [List.cons_append] at this ⊢
    simp [windowPos, this]

theorem windowPos_boundary (N : Nat) (t : List Nat) :
    ∀ (b : List Nat), ¬ containsSub (34 :: List.replicate N 35) b →
    windowPos (34 :: List.replicate N 35) (b ++ (34 :: List.replicate N 35) ++ t)
      = some b.length := by
  intro b
  induction b with
  | nil =>
    intro _
    simpa using windowPos_here (by simp) t
  | cons c b' ih =>
    intro hnc
    have hnc' : ¬ containsSub (34 :: List.replicate N 35) b' :=
      fun h => hnc (containsSub_cons h)
    have hl1 : (c :: b') ++ (34 :: List.replicate N 35) ++ t
        = c :: (b' ++ ((34 :: List.replicate N 35) ++ t)) := by simp
    rw [hl1]
    have hcond :
        ¬ ((c :: (b' ++ ((34 :: List.replicate N 35) ++ t))).take
            (34 :: List.replicate N 35).length = 34 :: List.replicate N 35) := by
      intro hEq
      simp only [List.length_cons, List.length_replicate, List.take_succ_cons,
        List.cons.injEq] at hEq
      obtain ⟨hc, htake⟩ := hEq
      by_cases hl : N ≤ b'.length
      · apply hnc
        refine ⟨0, by simp, ?_⟩
        have hb' : b'.take N = List.replicate N 35 := by
          rw [List.take_append_eq_append_take, Nat.sub_eq_zero_of_le hl] at htake
          simpa using htake
        simp only [List.drop_zero, List.length_cons, List.length_replicate,
          List.take_succ_cons, List.cons.injEq]
        exact ⟨hc, hb'⟩
      · push_neg at hl
        have h1 : ((b' ++ ((34 :: List.replicate N 35) ++ t)).take N)[b'.length]?
            = some 34 := by
          rw [List.getElem?_take_of_lt hl]
          rw [List.getElem?_append_right (Nat.le_refl _)]
          simp
        have h2 : (List.replicate N 35 : List Nat)[b'.length]? = some 35 := by
          simp [List.getElem?_replicate, hl]
        rw [htake] at h1
        rw [h1] at h2
        simp at h2
    have ih' : windowPos (34 :: List.replicate N 35)
        (b' ++ ((34 :: List.replicate N 35) ++ t)) = some b'.length := by
      rw [← List.append_assoc]
      exact ih hnc'
    simp only [windowPos, if_neg hcond, ih']
    simp

theorem windowPos_some_occ : ∀ (l : List Nat) (pat : List Nat) (i : Nat),
    pat ≠ [] → windowPos pat l = some i → containsSub pat l := by
  intro l
  induction l with
  | nil =>
    intro pat i hne h
    simp [windowPos, hne] at h
  | cons c t ih =>
    intro pat i hne h
    by_cases hc : (c :: t).take pat.length = pat
    · exact ⟨0, by simp, by simpa using hc⟩
    · simp only [windowPos, if_neg hc] at h
      cases hrec : windowPos pat t with
      | none => rw [hrec] at h; simp at h
      | some j =>
        exact containsSub_cons (ih pat j hne hrec)

theorem windowPos_none_of_not_contains {pat l : List Nat} (hne : pat ≠ [])
    (h : ¬ containsSub pat l) : windowPos pat l = none := by
  cases hw : windowPos pat l with
  | none => rfl
  | some i => exact absurd (windowPos_some_occ l pat i hne hw) h

theorem hexVal_hexDigit {d : Nat} (h : d < 16) : hexVal (hexDigit d) = some d := by
  interval_cases d <;> decide

theorem hexDigit_ne_10 (d : Nat) : hexDigit d ≠ 10 := by
  unfold hexDigit
  split <;> omega

theorem eat_byte_cons {b : Nat} (hb : b ≠ 10) (t : List Nat) (col line : Nat) :
    eat_byte ⟨b :: t, col, line⟩ = (.ok b, ⟨t, col + 1, line⟩) := by
  simp [eat_byte, peek_or_eof, advance_single, hb]

theorem dheLoop_step {d : Nat} (hd : d < 16) (k acc : Nat) (t : List Nat)
    (col line : Nat) :
    dheLoop (k + 1) acc ⟨hexDigit d :: t, col, line⟩
      = dheLoop k (acc * 16 + d) ⟨t, col + 1, line⟩ := by
  simp [dheLoop, eat_byte_cons (hexDigit_ne_10 d), hexVal_hexDigit hd]

theorem decode_hex4 (n : Nat) (hn : n < 65536) (rest : List Nat) (col line : Nat) :
    decode_hex_escape ⟨hex4 n ++ rest, col, line⟩ = (.ok n, ⟨rest, col + 4, line⟩) := by
  have h3 : n / 4096 < 16 := by omega
  have h2 : n / 256 % 16 < 16 := Nat.mod_lt _ (by omega)
  have h1 : n / 16 % 16 < 16 := Nat.mod_lt _ (by omega)
  have h0 : n % 16 < 16 := Nat.mod_lt _ (by omega)
  have hval : ((((0 * 16 + n / 4096) * 16 + n / 256 % 16) * 16 + n / 16 % 16) * 16
      + n % 16) = n := by
    have e1 := Nat.mod_add_div n 16
    have e2 := Nat.mod_add_div (n / 16) 16
    have e3 := Nat.mod_add_div (n / 256) 16
    have d1 : n / 16 / 16 = n / 256 := by
      rw [Nat.div_div_eq_div_mul]
    have d2 : n / 256 / 16 = n / 4096 := by
      rw [Nat.div_div_eq_div_mul]
    rw [d1] at e2
    rw [d2] at e3
    omega
  show dheLoop 4 0 _ = _
  rw [show (4 : Nat) = 3 + 1 from rfl, show hex4 n ++ rest
    = hexDigit (n / 4096) :: (hexDigit (n / 256 % 16) :: (hexDigit (n / 16 % 16)
      :: (hexDigit (n % 16) :: rest))) from rfl]
  rw [dheLoop_step h3, show (3 : Nat) = 2 + 1 from rfl, dheLoop_step h2,
    show (2 : Nat) = 1 + 1 from rfl, dheLoop_step h1,
    show (1 : Nat) = 0 + 1 from rfl, dheLoop_step h0]
  simp only [dheLoop, hval]

theorem escLoop_no_slice : ∀ (f : Nat) (store : List Nat) (s : Bytes)
    (x : List Nat), (escLoop f store s).1 = .ok (.Slice x) → False := by
  intro f
  induction f with
  | zero => intro store s x h; simp [escLoop] at h
  | succ f ih =>
    intro store s x h
    simp only [escLoop] at h
    cases hp : parse_str_escape store s with
    | mk r s1 =>
      rw [hp] at h
      cases r with
      | error e => simp at h
      | ok store1 =>
        simp only at h
        cases hf : findEscapeOrQuote s1.bytes with
        | none => rw [hf] at h; simp at h
        | some p =>
          obtain ⟨i, b⟩ := p
          rw [hf] at h
          simp only at h
          by_cases hb : b = 34
          · rw [if_pos hb] at h
            by_cases hu : utf8Valid (store1 ++ s1.bytes.take i) = true
            · rw [if_pos hu] at h; simp at h
            · rw [if_neg hu] at h; simp at h
          · rw [if_neg hb] at h
            exact ih _ _ x h

/-!
Claim theorems.
-/

/-- C1 (counterexample): on the input true_value, whose bytes are the
keyword true immediately followed by the identifier character _ (95),
Bytes::bool() does not fail with ExpectedBoolean: it succeeds with true,
consuming only the four keyword bytes. -/
theorem c1_counterexample :
    strBytes c1str = strTrue ++ 95 :: strBytes (r"value") ∧
    95 ∈ IDENT_CHAR ∧
    bool ⟨strBytes c1str, 1, 1⟩ = (.ok true, ⟨95 :: strBytes (r"value"), 5, 1⟩) := by
  refine ⟨by decide, by decide, by decide⟩

/-- C1 (amended): Bytes::bool() matches true and false as plain byte
prefixes via consume, never checking the byte that follows; on every input
beginning with a keyword followed by an identifier character it succeeds
with that keyword's value, leaving the identifier tail unconsumed. -/
theorem c1_bool_plain_consume (c : Nat) (tl : List Nat) (col line : Nat)
    (h : c ∈ IDENT_CHAR) :
    bool ⟨strTrue ++ c :: tl, col, line⟩ = (.ok true, ⟨c :: tl, col + 4, line⟩) ∧
    bool ⟨strFalse ++ c :: tl, col, line⟩ = (.ok false, ⟨c :: tl, col + 5, line⟩) := by
  constructor
  · have hcons := consume_append_no_nl strTrue (c :: tl) col line (by decide)
    simp only [bool, hcons]
    simp [strTrue]
  · have hfail : test_for strTrue (strFalse ++ c :: tl) = false := by
      simp [strTrue, strFalse, test_for]
    have hcons := consume_append_no_nl strFalse (c :: tl) col line (by decide)
    simp only [bool, consume_fail strTrue ⟨strFalse ++ c :: tl, col, line⟩ hfail,
      hcons]
    simp [strFalse]

/-- C1 (witness): the amended theorem applied to the identifier byte 95
with an empty tail. -/
theorem c1_witness :
    95 ∈ IDENT_CHAR ∧
    bool ⟨strTrue ++ 95 :: [], 1, 1⟩ = (.ok true, ⟨[95], 5, 1⟩) ∧
    bool ⟨strFalse ++ 95 :: [], 1, 1⟩ = (.ok false, ⟨[95], 6, 1⟩) :=
  ⟨by decide, (c1_bool_plain_consume 95 [] 1 1 (by decide)).1,
    (c1_bool_plain_consume 95 [] 1 1 (by decide)).2⟩

/-- C2 (counterexample): with N = 1 hash, the body x"##y contains no
double quote followed by exactly one hash (its only quote is followed by
two), yet parsing r#"x"##y"# does not return that body: the scan stops at
the first window matching quote-hash, yielding the slice x. -/
theorem c2_counterexample :
    c2input = 114 :: (List.replicate 1 35 ++ 34 :: (c2body ++ 34 :: (List.replicate 1 35 ++ []))) ∧
    (∀ i, i < c2body.length → c2body[i]? = some 34 →
      takeWhileCount (fun b => b == 35) (c2body.drop (i + 1)) ≠ 1) ∧
    (string ⟨c2input, 1, 1⟩).1 = .ok (.Slice [120]) ∧
    [120] ≠ c2body := by
  refine ⟨by decide, by decide, by decide, by decide⟩

/-- C4: on the input with a balanced nested block comment before true,
Bytes::new consumes the whole comment together with the surrounding
whitespace, leaving exactly the keyword, and Bytes::bool() then returns
true. -/
theorem c4_nested_comment :
    new (strBytes c4str) = ⟨strTrue, 30, 1⟩ ∧
    bool (new (strBytes c4str)) = (.ok true, ⟨[], 34, 1⟩) := by
  refine ⟨by decide, by decide⟩

/-- C6: serializing the tuple (1, "a", None) element by element in pretty
mode produces (1, "a", None) on a single line with no trailing comma,
while compact mode keeps every element's trailing comma. -/
theorem c6_pretty_tuple :
    (tupleEnd (tupleElement serialize_none (tupleElement (serialize_str (r"a"))
      (tupleElement (serialize_i64 1) (serialize_tuple ⟨[], some 0, false⟩))))).output
      = "(1, \"a\", None)".data ∧
    (tupleEnd (tupleElement serialize_none (tupleElement (serialize_str (r"a"))
      (tupleElement (serialize_i64 1) (serialize_tuple ⟨[], none, false⟩))))).output
      = "(1,\"a\",None,)".data := by
  refine ⟨by decide, by decide⟩

/-- C7: serializing Point x 1 y 2 field by field with pretty mode off
yields open brace, each field name, colon, value and comma (comma also
after the last field), close brace; with struct_names set the type name
precedes the open brace. -/
theorem c7_compact_struct :
    (structEnd (structField (r"y") (serialize_i64 2) (structField (r"x")
      (serialize_i64 1) (serialize_struct (r"Point") ⟨[], none, false⟩)))).output
      = "\x7bx:1,y:2,\x7d".data ∧
    (structEnd (structField (r"y") (serialize_i64 2) (structField (r"x")
      (serialize_i64 1) (serialize_struct (r"Point") ⟨[], none, true⟩)))).output
      = "Point\x7bx:1,y:2,\x7d".data := by
  refine ⟨by decide, by decide⟩

/-- C10: in pretty mode SerializeTuple::end pops the output twice
unconditionally, so ending a tuple with zero elements deletes the opening
paren and the character before it; with at least one element the two
popped characters are the trailing comma and space, so the stripping is
correct. -/
theorem c10_tuple_end_pop :
    (∀ (o : List Char) (ind : Nat) (sn : Bool),
      tupleEnd (serialize_tuple ⟨o, some ind, sn⟩)
        = ⟨o.dropLast ++ [')'], some ind, sn⟩) ∧
    (∀ (o : List Char) (ind : Nat) (sn : Bool) (n : Nat),
      tupleEnd (tupleElement (serialize_u64 n) (serialize_tuple ⟨o, some ind, sn⟩))
        = ⟨o ++ '(' :: ((toString n).data ++ [')']), some ind, sn⟩) := by
  constructor
  · intro o ind sn
    simp [serialize_tuple, tupleEnd]
  · intro o ind sn n
    simp only [serialize_tuple, tupleElement, serialize_u64, tupleEnd]
    simp only [List.append_assoc, List.cons_append, List.nil_append]
    rw [show o ++ '(' :: ((toString n).data ++ [',', ' '])
        = (o ++ '(' :: ((toString n).data ++ [','])) ++ [' '] by simp,
      List.dropLast_concat,
      show o ++ '(' :: ((toString n).data ++ [','])
        = (o ++ '(' :: (toString n).data) ++ [','] by simp,
      List.dropLast_concat]
    simp

/-- C8: Bytes::unsigned_integer fails with kind Eof whenever the next byte
is not a decimal digit, including when a non-digit byte is present, and it
produces ExpectedInteger only when a nonempty digit run overflows the
requested width. -/
theorem c8_unsigned_integer_eof :
    (∀ (maxv : Nat) (s : Bytes), (∀ b, s.bytes.head? = some b → b ∉ DIGITS) →
      unsigned_integer maxv s = (.error ⟨.Eof, ⟨s.line, s.column⟩⟩, s)) ∧
    (∀ (maxv : Nat) (s : Bytes) (p : Position),
      (unsigned_integer maxv s).1 = .error ⟨.ExpectedInteger, p⟩ →
      ∃ b t, s.bytes = b :: t ∧ b ∈ DIGITS ∧
        maxv < natOfDigits (s.bytes.take (next_bytes_contained_in DIGITS s))) := by
  constructor
  · intro maxv s hnd
    have h0 : next_bytes_contained_in DIGITS s = 0 := by
      unfold next_bytes_contained_in
      cases hb : s.bytes with
      | nil => simp [takeWhileCount]
      | cons b t =>
        have hmem : b ∉ DIGITS := hnd b (by rw [hb]; rfl)
        have hcont : DIGITS.contains b = false := by
          simpa using hmem
        simp [takeWhileCount, hcont, hmem]
    simp [unsigned_integer, h0, error]
  · intro maxv s p h
    simp only [unsigned_integer] at h
    split at h
    · simp only [error] at h
      exact absurd (congrArg errKind h) (by simp [errKind])
    · next h0 =>
      have hv := h
      split at hv
      · simp at hv
      · next hle =>
        obtain ⟨b, t, hbt, hpb⟩ :=
          twc_pos (fun b => DIGITS.contains b) s.bytes (by exact h0)
        refine ⟨b, t, hbt, by simpa using hpb, by omega⟩

/-- C8 (witness): the theorem applied to the non-digit input x and, for
the second part, to the digits 999 at width u8 (max 255). -/
theorem c8_witness :
    unsigned_integer 255 ⟨[120], 1, 1⟩ = (.error ⟨.Eof, ⟨1, 1⟩⟩, ⟨[120], 1, 1⟩) ∧
    (∃ b t, ([57, 57, 57] : List Nat) = b :: t ∧ b ∈ DIGITS ∧
      255 < natOfDigits (([57, 57, 57] : List Nat).take
        (next_bytes_contained_in DIGITS ⟨[57, 57, 57], 1, 1⟩))) :=
  ⟨c8_unsigned_integer_eof.1 255 ⟨[120], 1, 1⟩ (by decide),
   c8_unsigned_integer_eof.2 255 ⟨[57, 57, 57], 1, 1⟩ ⟨1, 1⟩ (by decide)⟩

/-- C9: Bytes::char casts the single body byte to a char, so a one-byte
body in 0x80..0xFF yields that Latin-1 code point, while a two-byte UTF-8
character between the quotes fails with ExpectedChar at the position where
the closing quote was expected. -/
theorem c9_char_latin1 :
    (∀ (b : Nat) (tl : List Nat) (col line : Nat), 128 ≤ b → b ≤ 255 →
      char ⟨39 :: b :: 39 :: tl, col, line⟩ = (.ok b, ⟨tl, col + 3, line⟩)) ∧
    (∀ (c1 c2 : Nat) (tl : List Nat) (col line : Nat),
      194 ≤ c1 → c1 ≤ 244 → 128 ≤ c2 → c2 ≤ 191 →
      char ⟨39 :: c1 :: c2 :: tl, col, line⟩
        = (.error ⟨.ExpectedChar, ⟨line, col + 2⟩⟩, ⟨c2 :: tl, col + 2, line⟩)) := by
  constructor
  · intro b tl col line h1 h2
    have hq : consume quoteCh ⟨39 :: (b :: 39 :: tl), col, line⟩
        = (true, ⟨b :: 39 :: tl, col + 1, line⟩) := by
      simpa [quoteCh] using
        consume_append_no_nl quoteCh (b :: 39 :: tl) col line (by decide)
    have hb10 : b ≠ 10 := by omega
    have heat := eat_byte_cons hb10 (39 :: tl) (col + 1) line
    have hb92 : ¬ b = 92 := by omega
    have hq2 : consume quoteCh ⟨39 :: tl, col + 1 + 1, line⟩
        = (true, ⟨tl, col + 1 + 1 + 1, line⟩) := by
      simpa [quoteCh] using
        consume_append_no_nl quoteCh tl (col + 1 + 1) line (by decide)
    simp only [char, hq, heat, hb92, if_false, hq2, if_neg hb92]
  · intro c1 c2 tl col line h1 h2 h3 h4
    have hq : consume quoteCh ⟨39 :: (c1 :: c2 :: tl), col, line⟩
        = (true, ⟨c1 :: c2 :: tl, col + 1, line⟩) := by
      simpa [quoteCh] using
        consume_append_no_nl quoteCh (c1 :: c2 :: tl) col line (by decide)
    have hc10 : c1 ≠ 10 := by omega
    have heat := eat_byte_cons hc10 (c2 :: tl) (col + 1) line
    have hc92 : ¬ c1 = 92 := by omega
    have hne : ¬ ((39 : Nat) == c2) = true := by simp; omega
    have hfail : test_for quoteCh (c2 :: tl) = false := by
      simp [quoteCh, test_for]
      omega
    have hq2 : consume quoteCh ⟨c2 :: tl, col + 1 + 1, line⟩
        = (false, ⟨c2 :: tl, col + 1 + 1, line⟩) :=
      consume_fail _ _ hfail
    simp only [char, hq, heat, if_neg hc92, hq2]
    simp [error]

theorem escLoop_single (f : Nat) (store post tl : List Nat) (s : Bytes)
    (hb : s.bytes = 110 :: (post ++ 34 :: tl))
    (hq34 : 34 ∉ post) (hq92 : 92 ∉ post)
    (hu : utf8Valid (store ++ 10 :: post) = true) :
    (escLoop (f + 1) store s).1 = .ok (.Allocated (store ++ 10 :: post)) ∧
    ((escLoop (f + 1) store s).2).bytes = tl := by
  have ha : (advance_single s).2 = ⟨post ++ 34 :: tl, s.column + 1, s.line⟩ := by
    simp [advance_single, hb]
  have he : eat_byte s = (.ok 110, ⟨post ++ 34 :: tl, s.column + 1, s.line⟩) := by
    simp [eat_byte, peek_or_eof, hb, ha]
  have hp : parse_str_escape store s
      = (.ok (store ++ [10]), ⟨post ++ 34 :: tl, s.column + 1, s.line⟩) := by
    simp [parse_str_escape, he]
  have hfind : findEscapeOrQuote (post ++ 34 :: tl) = some (post.length, 34) :=
    feq_clean post hq34 hq92 34 tl (Or.inr rfl)
  have htake : (post ++ 34 :: tl).take post.length = post := by
    simpa using List.take_left post _
  have hu' : utf8Valid ((store ++ [10]) ++ post) = true := by
    rw [show (store ++ [10]) ++ post = store ++ 10 :: post by simp]
    exact hu
  have hdrop : (post ++ 34 :: tl).drop (post.length + 1) = tl := by
    rw [show post ++ 34 :: tl = (post ++ [34]) ++ tl by simp]
    exact List.drop_left' (by simp)
  constructor
  · simp [escLoop, hp, hfind, htake, hu', hu]
  · simp [escLoop, hp, hfind, htake, hu', hu, advanceD_bytes, hdrop]

/-- C5: Bytes::string() on an escaped string literal returns a borrowed
slice of exactly the bytes between the quotes when the body contains no
backslash; when an escape occurs it switches to an owned buffer and
returns an allocated string with the decoded bytes (shown for a body with
one backslash-n escape); moreover every successful Slice result comes from
a scan that found the closing quote first, and every Allocated result from
a scan that found a backslash first. -/
theorem c5_borrowed_owned :
    (∀ (b tl : List Nat) (col line : Nat), 34 ∉ b → 92 ∉ b →
      utf8Valid b = true →
      (string ⟨34 :: (b ++ 34 :: tl), col, line⟩).1 = .ok (.Slice b) ∧
      ((string ⟨34 :: (b ++ 34 :: tl), col, line⟩).2).bytes = tl) ∧
    (∀ (pre post tl : List Nat) (col line : Nat), 34 ∉ pre → 92 ∉ pre →
      34 ∉ post → 92 ∉ post → utf8Valid (pre ++ 10 :: post) = true →
      (string ⟨34 :: (pre ++ 92 :: 110 :: (post ++ 34 :: tl)), col, line⟩).1
        = .ok (.Allocated (pre ++ 10 :: post)) ∧
      ((string ⟨34 :: (pre ++ 92 :: 110 :: (post ++ 34 :: tl)), col, line⟩).2).bytes
        = tl) ∧
    (∀ (s : Bytes) (x : List Nat), (escaped_string s).1 = .ok (.Slice x) →
      findEscapeOrQuote s.bytes = some (x.length, 34)) ∧
    (∀ (s : Bytes) (x : List Nat), (escaped_string s).1 = .ok (.Allocated x) →
      ∃ i, findEscapeOrQuote s.bytes = some (i, 92)) := by
  refine ⟨?_, ?_, ?_, ?_⟩
  · intro b tl col line h34 h92 hu
    have hq : consume quoteB ⟨34 :: (b ++ 34 :: tl), col, line⟩
        = (true, ⟨b ++ 34 :: tl, col + 1, line⟩) := by
      simpa [quoteB] using consume_append_no_nl quoteB (b ++ 34 :: tl) col line (by decide)
    have hfind : findEscapeOrQuote (b ++ 34 :: tl) = some (b.length, 34) :=
      feq_clean b h34 h92 34 tl (Or.inr rfl)
    have htake : (b ++ 34 :: tl).take b.length = b := by
      simpa using List.take_left b _
    have hdrop : (b ++ 34 :: tl).drop (b.length + 1) = tl := by
      rw [show b ++ 34 :: tl = (b ++ [34]) ++ tl by simp]
      exact List.drop_left' (by simp)
    constructor
    · simp [string, hq, escaped_string, hfind, htake, hu]
    · simp [string, hq, escaped_string, hfind, htake, hu, advanceD_bytes, hdrop]
  · intro pre post tl col line hp34 hp92 hq34 hq92 hu
    have hq : consume quoteB ⟨34 :: (pre ++ 92 :: 110 :: (post ++ 34 :: tl)), col, line⟩
        = (true, ⟨pre ++ 92 :: 110 :: (post ++ 34 :: tl), col + 1, line⟩) := by
      simpa [quoteB] using
        consume_append_no_nl quoteB (pre ++ 92 :: 110 :: (post ++ 34 :: tl)) col line
          (by decide)
    have hfind1 : findEscapeOrQuote (pre ++ 92 :: 110 :: (post ++ 34 :: tl))
        = some (pre.length, 92) := feq_clean pre hp34 hp92 92 _ (Or.inl rfl)
    have htake1 : (pre ++ 92 :: 110 :: (post ++ 34 :: tl)).take pre.length = pre := by
      simpa using List.take_left pre _
    have hbytes2 : (advanceD (pre.length + 1)
        ⟨pre ++ 92 :: 110 :: (post ++ 34 :: tl), col + 1, line⟩).bytes
        = 110 :: (post ++ 34 :: tl) := by
      rw [advanceD_bytes]
      rw [show pre ++ 92 :: 110 :: (post ++ 34 :: tl)
          = (pre ++ [92]) ++ (110 :: (post ++ 34 :: tl)) by simp]
      exact List.drop_left' (by simp)
    have hloop := escLoop_single (pre ++ 92 :: 110 :: (post ++ 34 :: tl)).length pre
      post tl _ hbytes2 hq34 hq92 hu
    constructor
    · simp only [string, hq, escaped_string, hfind1]
      rw [if_neg (by decide : ¬ ((92 : Nat) = 34)), htake1]
      simpa using hloop.1
    · simp only [string, hq, escaped_string, hfind1]
      rw [if_neg (by decide : ¬ ((92 : Nat) = 34)), htake1]
      simpa using hloop.2
  · intro s x h
    simp only [escaped_string] at h
    cases hf : findEscapeOrQuote s.bytes with
    | none => rw [hf] at h; simp at h
    | some p =>
      obtain ⟨i, b⟩ := p
      rw [hf] at h
      simp only at h
      by_cases hb : b = 34
      · subst hb
        rw [if_pos rfl] at h
        by_cases hu : utf8Valid (s.bytes.take i) = true
        · rw [if_pos hu] at h
          simp only [Res.ok.injEq, ParsedStr.Slice.injEq] at h
          have hilen : i < s.bytes.length := (feq_some_lt _ _ _ hf).1
          have hxlen : x.length = i := by
            rw [← h]
            simp [List.length_take]
            omega
          rw [hxlen]
        · rw [if_neg hu] at h
          simp at h
      · rw [if_neg hb] at h
        exact absurd h (fun hh => escLoop_no_slice _ _ _ x hh)
  · intro s x h
    simp only [escaped_string] at h
    cases hf : findEscapeOrQuote s.bytes with
    | none => rw [hf] at h; simp at h
    | some p =>
      obtain ⟨i, b⟩ := p
      rw [hf] at h
      simp only at h
      by_cases hb : b = 34
      · subst hb
        rw [if_pos rfl] at h
        by_cases hu : utf8Valid (s.bytes.take i) = true
        · rw [if_pos hu] at h
          simp at h
        · rw [if_neg hu] at h
          simp at h
      · have := (feq_some_lt _ _ _ hf).2
        have hb92 : b = 92 := by
          rcases this with h92 | h34
          · exact h92
          · exact absurd h34 hb
        subst hb92
        exact ⟨i, rfl⟩

/-- C2 (amended): for every N and every UTF-8-valid byte sequence b that
does not contain the substring quote-then-N-hashes (equivalently, no
quote in b is followed by N or more hashes), Bytes::string() on
r + N hashes + quote + b + quote + N hashes parses the raw string and
returns exactly b as a borrowed slice with no escape processing, consuming
the whole literal; and whenever the closing quote-then-N-hashes never
occurs after the opening quote, the result is ExpectedStringEnd. -/
theorem c2_raw_string_amended :
    (∀ (N : Nat) (b rest : List Nat) (col line : Nat),
      utf8Valid b = true →
      ¬ containsSub (34 :: List.replicate N 35) b →
      (string ⟨114 :: (List.replicate N 35
          ++ 34 :: (b ++ 34 :: (List.replicate N 35 ++ rest))), col, line⟩).1
        = .ok (.Slice b) ∧
      ((string ⟨114 :: (List.replicate N 35
          ++ 34 :: (b ++ 34 :: (List.replicate N 35 ++ rest))), col, line⟩).2).bytes
        = rest) ∧
    (∀ (N : Nat) (t : List Nat) (col line : Nat),
      ¬ containsSub (34 :: List.replicate N 35) t →
      (string ⟨114 :: (List.replicate N 35 ++ 34 :: t), col, line⟩).1
        = .error ⟨.ExpectedStringEnd, ⟨line, col + N + 2⟩⟩) := by
  constructor
  · intro N b rest col line hu hnc
    have hf1 : test_for quoteB (114 :: (List.replicate N 35
        ++ 34 :: (b ++ 34 :: (List.replicate N 35 ++ rest)))) = false := by
      simp [quoteB, test_for]
    have hc1 := consume_fail quoteB ⟨114 :: (List.replicate N 35
        ++ 34 :: (b ++ 34 :: (List.replicate N 35 ++ rest))), col, line⟩ hf1
    have hc2 : consume rB ⟨114 :: (List.replicate N 35
        ++ 34 :: (b ++ 34 :: (List.replicate N 35 ++ rest))), col, line⟩
        = (true, ⟨List.replicate N 35
            ++ 34 :: (b ++ 34 :: (List.replicate N 35 ++ rest)), col + 1, line⟩) := by
      simpa [rB] using consume_append_no_nl rB (List.replicate N 35
        ++ 34 :: (b ++ 34 :: (List.replicate N 35 ++ rest))) col line (by decide)
    have htwc : takeWhileCount (fun x => x == 35) (List.replicate N 35
        ++ 34 :: (b ++ 34 :: (List.replicate N 35 ++ rest))) = N :=
      twc_replicate _ 35 34 _ (by decide) (by decide) N
    have htakeN : (List.replicate N 35
        ++ 34 :: (b ++ 34 :: (List.replicate N 35 ++ rest))).take N
        = List.replicate N 35 := List.take_left' (by simp)
    have hdropN : (List.replicate N 35
        ++ 34 :: (b ++ 34 :: (List.replicate N 35 ++ rest))).drop N
        = 34 :: (b ++ 34 :: (List.replicate N 35 ++ rest)) :=
      List.drop_left' (by simp)
    have hadv : advanceD N ⟨List.replicate N 35
        ++ 34 :: (b ++ 34 :: (List.replicate N 35 ++ rest)), col + 1, line⟩
        = ⟨34 :: (b ++ 34 :: (List.replicate N 35 ++ rest)), col + 1 + N, line⟩ := by
      rw [advanceD_no_nl]
      · rw [hdropN]
      · intro x hx
        rw [htakeN] at hx
        simp [List.mem_replicate] at hx
        omega
      · simp
    have hc3 : consume quoteB ⟨34 :: (b ++ 34 :: (List.replicate N 35 ++ rest)),
        col + 1 + N, line⟩
        = (true, ⟨b ++ 34 :: (List.replicate N 35 ++ rest), col + 1 + N + 1, line⟩) := by
      simpa [quoteB] using consume_append_no_nl quoteB
        (b ++ 34 :: (List.replicate N 35 ++ rest)) (col + 1 + N) line (by decide)
    have hwin : windowPos (34 :: List.replicate N 35)
        (b ++ 34 :: (List.replicate N 35 ++ rest)) = some b.length := by
      rw [show b ++ 34 :: (List.replicate N 35 ++ rest)
          = b ++ (34 :: List.replicate N 35) ++ rest by simp]
      exact windowPos_boundary N rest b hnc
    have htakeb : (b ++ 34 :: (List.replicate N 35 ++ rest)).take b.length = b := by
      simpa using List.take_left b _
    have hdropb : (b ++ 34 :: (List.replicate N 35 ++ rest)).drop (b.length + N + 1)
        = rest := by
      rw [show b ++ 34 :: (List.replicate N 35 ++ rest)
          = (b ++ 34 :: List.replicate N 35) ++ rest by simp]
      exact List.drop_left' (by simp; omega)
    constructor
    · simp only [string, hc1, hc2, raw_string, htwc, htakeN, hadv, hc3, hwin,
        htakeb, hu]
      simp
    · simp only [string, hc1, hc2, raw_string, htwc, htakeN, hadv, hc3, hwin,
        htakeb, hu]
      simp [advanceD_bytes, hdropb]
  · intro N t col line hnc
    have hf1 : test_for quoteB (114 :: (List.replicate N 35 ++ 34 :: t)) = false := by
      simp [quoteB, test_for]
    have hc1 := consume_fail quoteB
      ⟨114 :: (List.replicate N 35 ++ 34 :: t), col, line⟩ hf1
    have hc2 : consume rB ⟨114 :: (List.replicate N 35 ++ 34 :: t), col, line⟩
        = (true, ⟨List.replicate N 35 ++ 34 :: t, col + 1, line⟩) := by
      simpa [rB] using consume_append_no_nl rB (List.replicate N 35 ++ 34 :: t)
        col line (by decide)
    have htwc : takeWhileCount (fun x => x == 35) (List.replicate N 35 ++ 34 :: t)
        = N := twc_replicate _ 35 34 _ (by decide) (by decide) N
    have htakeN : (List.replicate N 35 ++ 34 :: t).take N = List.replicate N 35 :=
      List.take_left' (by simp)
    have hdropN : (List.replicate N 35 ++ 34 :: t).drop N = 34 :: t :=
      List.drop_left' (by simp)
    have hadv : advanceD N ⟨List.replicate N 35 ++ 34 :: t, col + 1, line⟩
        = ⟨34 :: t, col + 1 + N, line⟩ := by
      rw [advanceD_no_nl]
      · rw [hdropN]
      · intro x hx
        rw [htakeN] at hx
        simp [List.mem_replicate] at hx
        omega
      · simp
    have hc3 : consume quoteB ⟨34 :: t, col + 1 + N, line⟩
        = (true, ⟨t, col + 1 + N + 1, line⟩) := by
      simpa [quoteB] using consume_append_no_nl quoteB t (col + 1 + N) line (by decide)
    have hwin : windowPos (34 :: List.replicate N 35) t = none :=
      windowPos_none_of_not_contains (by simp) hnc
    have harith : col + 1 + N + 1 = col + N + 2 := by omega
    simp only [string, hc1, hc2, raw_string, htwc, htakeN, hadv, hc3, hwin, harith]
    simp [error]

/-- C3: in an escaped string, a backslash-u high surrogate immediately
followed by a backslash-u low surrogate decodes to the single combined
code point, UTF-8-encoded onto the store; an unpaired low surrogate, a
high surrogate not followed by backslash, u and a valid low surrogate,
and any escape character outside the recognized set all yield
InvalidEscape. -/
theorem c3_unicode_escape :
    (∀ (hi lo : Nat) (store rest : List Nat) (col line : Nat),
      55296 ≤ hi → hi ≤ 56319 → 56320 ≤ lo → lo ≤ 57343 →
      parse_str_escape store
        ⟨117 :: (hex4 hi ++ 92 :: 117 :: (hex4 lo ++ rest)), col, line⟩
        = (.ok (store ++ utf8Encode ((((hi - 55296) <<< 10) ||| (lo - 56320))
            + 65536)), ⟨rest, col + 11, line⟩)) ∧
    (∀ (lo : Nat) (store rest : List Nat) (col line : Nat),
      56320 ≤ lo → lo ≤ 57343 →
      parse_str_escape store ⟨117 :: (hex4 lo ++ rest), col, line⟩
        = (.error ⟨.InvalidEscape, ⟨line, col + 5⟩⟩, ⟨rest, col + 5, line⟩)) ∧
    (∀ (hi c : Nat) (store rest : List Nat) (col line : Nat),
      55296 ≤ hi → hi ≤ 56319 → c ≠ 92 →
      errKind (parse_str_escape store
        ⟨117 :: (hex4 hi ++ c :: rest), col, line⟩).1 = some .InvalidEscape) ∧
    (∀ (hi c : Nat) (store rest : List Nat) (col line : Nat),
      55296 ≤ hi → hi ≤ 56319 → c ≠ 117 →
      errKind (parse_str_escape store
        ⟨117 :: (hex4 hi ++ 92 :: c :: rest), col, line⟩).1 = some .InvalidEscape) ∧
    (∀ (hi n2 : Nat) (store rest : List Nat) (col line : Nat),
      55296 ≤ hi → hi ≤ 56319 → n2 < 65536 → (n2 < 56320 ∨ 57343 < n2) →
      errKind (parse_str_escape store
        ⟨117 :: (hex4 hi ++ 92 :: 117 :: (hex4 n2 ++ rest)), col, line⟩).1
        = some .InvalidEscape) ∧
    (∀ (c : Nat) (store rest : List Nat) (col line : Nat),
      c ∉ ([34, 92, 98, 102, 110, 114, 116, 117] : List Nat) →
      errKind (parse_str_escape store ⟨c :: rest, col, line⟩).1
        = some .InvalidEscape) := by
  refine ⟨?_, ?_, ?_, ?_, ?_, ?_⟩
  · intro hi lo store rest col line h1 h2 h3 h4
    have hhi : hi < 65536 := by omega
    have hlo : lo < 65536 := by omega
    have he1 := eat_byte_cons (by decide : (117 : Nat) ≠ 10)
      (hex4 hi ++ 92 :: 117 :: (hex4 lo ++ rest)) col line
    have hd1 := decode_hex4 hi hhi (92 :: 117 :: (hex4 lo ++ rest)) (col + 1) line
    have he2 := eat_byte_cons (by decide : (92 : Nat) ≠ 10)
      (117 :: (hex4 lo ++ rest)) (col + 1 + 4) line
    have he3 := eat_byte_cons (by decide : (117 : Nat) ≠ 10)
      (hex4 lo ++ rest) (col + 1 + 4 + 1) line
    have hd2 := decode_hex4 lo hlo rest (col + 1 + 4 + 1 + 1) line
    have hvalid : isValidCp ((((hi - 55296) <<< 10) ||| (lo - 56320)) + 65536)
        = true := by
      have hx : (hi - 55296) <<< 10 < 2 ^ 20 := by
        rw [Nat.shiftLeft_eq]
        have hlt : hi - 55296 < 2 ^ 10 := by omega
        calc (hi - 55296) * 2 ^ 10 < 2 ^ 10 * 2 ^ 10 :=
              (Nat.mul_lt_mul_right (by norm_num)).mpr hlt
          _ = 2 ^ 20 := by norm_num
      have hy : lo - 56320 < 2 ^ 20 := by
        have : (2 : Nat) ^ 20 = 1048576 := by norm_num
        omega
      have hor := Nat.or_lt_two_pow hx hy
      have h20 : (2 : Nat) ^ 20 = 1048576 := by norm_num
      rw [h20] at hor
      simp only [isValidCp, Bool.or_eq_true, decide_eq_true_eq, Bool.and_eq_true]
      omega
    have hA : ¬(56320 ≤ hi ∧ hi ≤ 57343) := by omega
    have hB : 55296 ≤ hi ∧ hi ≤ 56319 := ⟨h1, h2⟩
    have hC : ¬(lo < 56320 ∨ 57343 < lo) := by omega
    simp [parse_str_escape, he1, hd1, he2, he3, hd2, hA, hB, hC, hvalid]
  · intro lo store rest col line h3 h4
    have hlo : lo < 65536 := by omega
    have he1 := eat_byte_cons (by decide : (117 : Nat) ≠ 10) (hex4 lo ++ rest)
      col line
    have hd1 := decode_hex4 lo hlo rest (col + 1) line
    have hA : 56320 ≤ lo ∧ lo ≤ 57343 := ⟨h3, h4⟩
    simp [parse_str_escape, he1, hd1, hA, error]
  · intro hi c store rest col line h1 h2 hc
    have hhi : hi < 65536 := by omega
    have he1 := eat_byte_cons (by decide : (117 : Nat) ≠ 10) (hex4 hi ++ c :: rest)
      col line
    have hd1 := decode_hex4 hi hhi (c :: rest) (col + 1) line
    have he2 : eat_byte ⟨c :: rest, col + 1 + 4, line⟩
        = (.ok c, (advance_single ⟨c :: rest, col + 1 + 4, line⟩).2) := by
      simp [eat_byte, peek_or_eof]
    have hA : ¬(56320 ≤ hi ∧ hi ≤ 57343) := by omega
    have hB : 55296 ≤ hi ∧ hi ≤ 56319 := ⟨h1, h2⟩
    simp [parse_str_escape, he1, hd1, he2, hA, hB, hc, errKind, error]
  · intro hi c store rest col line h1 h2 hc
    have hhi : hi < 65536 := by omega
    have he1 := eat_byte_cons (by decide : (117 : Nat) ≠ 10)
      (hex4 hi ++ 92 :: c :: rest) col line
    have hd1 := decode_hex4 hi hhi (92 :: c :: rest) (col + 1) line
    have he2 := eat_byte_cons (by decide : (92 : Nat) ≠ 10) (c :: rest)
      (col + 1 + 4) line
    have he3 : eat_byte ⟨c :: rest, col + 1 + 4 + 1, line⟩
        = (.ok c, (advance_single ⟨c :: rest, col + 1 + 4 + 1, line⟩).2) := by
      simp [eat_byte, peek_or_eof]
    have hA : ¬(56320 ≤ hi ∧ hi ≤ 57343) := by omega
    have hB : 55296 ≤ hi ∧ hi ≤ 56319 := ⟨h1, h2⟩
    simp [parse_str_escape, he1, hd1, he2, he3, hA, hB, hc, errKind, error]
  · intro hi n2 store rest col line h1 h2 hn2 hout
    have hhi : hi < 65536 := by omega
    have he1 := eat_byte_cons (by decide : (117 : Nat) ≠ 10)
      (hex4 hi ++ 92 :: 117 :: (hex4 n2 ++ rest)) col line
    have hd1 := decode_hex4 hi hhi (92 :: 117 :: (hex4 n2 ++ rest)) (col + 1) line
    have he2 := eat_byte_cons (by decide : (92 : Nat) ≠ 10)
      (117 :: (hex4 n2 ++ rest)) (col + 1 + 4) line
    have he3 := eat_byte_cons (by decide : (117 : Nat) ≠ 10) (hex4 n2 ++ rest)
      (col + 1 + 4 + 1) line
    have hd2 := decode_hex4 n2 hn2 rest (col + 1 + 4 + 1 + 1) line
    have hA : ¬(56320 ≤ hi ∧ hi ≤ 57343) := by omega
    have hB : 55296 ≤ hi ∧ hi ≤ 56319 := ⟨h1, h2⟩
    simp [parse_str_escape, he1, hd1, he2, he3, hd2, hA, hB, hout, errKind, error]
  · intro c store rest col line hmem
    simp only [List.mem_cons, List.mem_singleton] at hmem
    push_neg at hmem
    obtain ⟨n34, n92, n98, n102, n110, n114, n116, n117, -⟩ := hmem
    have he : eat_byte ⟨c :: rest, col, line⟩
        = (.ok c, (advance_single ⟨c :: rest, col, line⟩).2) := by
      simp [eat_byte, peek_or_eof]
    simp only [parse_str_escape, he]
    rw [if_neg n34, if_neg n92, if_neg n98, if_neg n102, if_neg n110, if_neg n114,
      if_neg n116, if_neg n117]
    simp [errKind, error]

/-- C3 (witness): the theorem's pair case at the surrogates 0xD83D 0xDE00;
the decoded code point is U+1F600 and its UTF-8 encoding is the 4 bytes
F0 9F 98 80. -/
theorem c3_witness :
    parse_str_escape [] ⟨117 :: (hex4 55357 ++ 92 :: 117 :: (hex4 56832 ++ [])), 1, 1⟩
      = (.ok ([] ++ utf8Encode ((((55357 - 55296) <<< 10) ||| (56832 - 56320))
          + 65536)), ⟨[], 12, 1⟩) ∧
    utf8Encode ((((55357 - 55296) <<< 10) ||| (56832 - 56320)) + 65536)
      = [240, 159, 152, 128] :=
  ⟨c3_unicode_escape.1 55357 56832 [] [] 1 1 (by decide) (by decide) (by decide)
    (by decide), by decide⟩

/-- C2 (witness): the amended theorem applied with one hash to the body
hi, and the missing-closer part applied with zero hashes to the body that
is a bare h. -/
theorem c2_witness :
    (string ⟨[114, 35, 34, 104, 105, 34, 35], 1, 1⟩).1 = .ok (.Slice [104, 105]) ∧
    (string ⟨[114, 34, 104], 1, 1⟩).1 = .error ⟨.ExpectedStringEnd, ⟨1, 3⟩⟩ :=
  ⟨(c2_raw_string_amended.1 1 [104, 105] [] 1 1 (by decide) (by decide)).1,
   c2_raw_string_amended.2 0 [104] 1 1 (by decide)⟩

/-- C5 (witness): the theorem applied to the escape-free body hi and to
the single-escape body a backslash-n b. -/
theorem c5_witness :
    (string ⟨[34, 104, 105, 34, 99], 1, 1⟩).1 = .ok (.Slice [104, 105]) ∧
    (string ⟨[34, 97, 92, 110, 98, 34, 99], 1, 1⟩).1 = .ok (.Allocated [97, 10, 98]) :=
  ⟨(c5_borrowed_owned.1 [104, 105] [99] 1 1 (by decide) (by decide) (by decide)).1,
   (c5_borrowed_owned.2.1 [97] [98] [99] 1 1 (by decide) (by decide) (by decide)
     (by decide) (by decide)).1⟩

/-- C9 (witness): the theorem applied to the Latin-1 byte 0xE9 and to the
two-byte UTF-8 encoding 0xC3 0xA9. -/
theorem c9_witness :
    char ⟨[39, 233, 39, 99], 1, 1⟩ = (.ok 233, ⟨[99], 4, 1⟩) ∧
    char ⟨[39, 195, 169, 39], 1, 1⟩
      = (.error ⟨.ExpectedChar, ⟨1, 3⟩⟩, ⟨[169, 39], 3, 1⟩) :=
  ⟨c9_char_latin1.1 233 [99] 1 1 (by decide) (by decide),
   c9_char_latin1.2 195 169 [39] 1 1 (by decide) (by decide) (by decide) (by decide)⟩

end Rson
